import Mathlib

/-!
Verification development for the VI-Solver Basin-of-Attraction sampler
(`VISolver/BoA/MCGrid_Enhanced 2.py`): a shallow embedding of the
Trajectory Worker `LE` and the Sampling Loop `MCT` over exact rational
arithmetic, together with theorems about the embedded code.

Machine floats are modelled by `ℚ`; `np.exp` is an opaque parameter
`E : ℚ → ℚ` (the structural claims hold for every `E`); `np.inf` (the
initial convergence statistic) is modelled by `none : Option ℚ`.

The helper functions imported from `VISolver.BoA.Utilities`
(`int2ind`, `ind2pt`, `ind2int`, `pt2inds`, `neighbors`, `update_LERef`,
`adjustLEs2Ref`, `update_Prob_Data`) are not part of the sources; each is
modelled from the specification and marked as such in its doc comment.
-/

namespace MCG

/-- A grid cell index: one integer per dimension (`ℤ`, because a point
near the domain edge can produce an out-of-range surrounding index). -/
abbrev Ind := List ℤ

/-- A Lyapunov-exponent signature: a vector of rationals. -/
abbrev Sig := List ℚ

/-- A point of state space. -/
abbrev Pt := List ℚ

/-- One row of the `grid` array: `(lo, hi, count, width)` — the code reads
`grid[:,0]`, `grid[:,1]`, `grid[:,2]` (shape) and `grid[:,3]` (widths). -/
structure DimSpec where
  lo : ℚ
  hi : ℚ
  cnt : ℕ
  w : ℚ
deriving DecidableEq, Repr

abbrev Grid := List DimSpec

/-- `shape = tuple(grid[:,2])`. -/
def gridShape (grid : Grid) : List ℕ := grid.map (fun d => d.cnt)

/-- Modelled from the spec: mixed-radix (row-major) encoding of a Cell
Index into a flat Cell Id (`ind2int` of `VISolver.BoA.Utilities`). -/
def ind2int (ind : Ind) (shape : List ℕ) : ℤ :=
  (List.zip ind shape).foldl (fun acc x => acc * (x.2 : ℤ) + x.1) 0

/-- Modelled from the spec: inverse mixed-radix decoding of a flat Cell Id
(`int2ind` of `VISolver.BoA.Utilities`). -/
def int2ind (id : ℕ) (shape : List ℕ) : Ind :=
  match shape with
  | [] => []
  | n :: rest =>
      let m := rest.prod
      ((id / m) % n : ℕ) :: int2ind (id % m) rest

/-- Raw coordinate of a cell index: `lo_d + i_d * w_d` per dimension. -/
def ind2pt0 (ind : Ind) (grid : Grid) : Pt :=
  List.zipWith (fun (i : ℤ) d => d.lo + (i : ℚ) * d.w) ind grid

/-- Modelled from the spec: `ind2pt` of `VISolver.BoA.Utilities` —
evaluates the coordinate of a cell index; with `checkBnds` true, boundary
cell indices are pulled inward by half a cell width. -/
def ind2pt (ind : Ind) (grid : Grid) (checkBnds : Bool) : Pt :=
  List.zipWith
    (fun (i : ℤ) d =>
      let x := d.lo + (i : ℚ) * d.w
      if checkBnds then
        if x ≤ d.lo then d.lo + d.w / 2
        else if d.hi ≤ x then d.hi - d.w / 2
        else x
      else x)
    ind grid

/-- All tuples picking one element per inner list (cartesian product,
first coordinate outermost). -/
def prodLists : List (List ℤ) → List Ind
  | [] => [[]]
  | xs :: rest => xs.flatMap (fun x => (prodLists rest).map (fun tl => x :: tl))

/-- Modelled from the spec: `pt2inds` of `VISolver.BoA.Utilities` — the
`2^d` cell indices of the hyper-rectangle cell containing a point (lower
and upper index per dimension, all combinations). -/
def pt2inds (pt : Pt) (grid : Grid) : List Ind :=
  prodLists
    (List.zipWith
      (fun (x : ℚ) d =>
        let i : ℤ := Int.floor ((x - d.lo) / d.w)
        [i, i + 1])
      pt grid)

/-- All valid cell indices of the grid. -/
def allInds (shape : List ℕ) : List Ind :=
  prodLists (shape.map (fun n => (List.range n).map Int.ofNat))

/-- Modelled from the spec: `neighbors` of `VISolver.BoA.Utilities` —
cell indices within an anisotropically scaled Minkowski ball of order `q`
and radius `r` around the center (distance `‖Dinv · (p_c − p_j)‖_q`),
excluding the center; the norm comparison is done on `q`-th powers, which
is equivalent for nonnegative quantities. -/
def neighbors (center : Ind) (grid : Grid) (r : ℚ) (q : ℕ) (Dinv : ℚ) :
    List Ind :=
  let pc := ind2pt0 center grid
  (allInds (gridShape grid)).filter
    (fun j =>
      j ≠ center ∧
      ((List.zipWith (fun a b => |Dinv * (a - b)| ^ q) pc
          (ind2pt0 j grid)).sum ≤ r ^ q))

/-! ### Dictionary with `(weighted_decay, weight)` values

The Python code uses plain dicts `{cube_ind : [num, den]}` with the idiom
`if not (key in d): d[key] = [0,0]; d[key][0] += v; d[key][1] += w`.
`dictAdd` is that idiom; `dlook` is lookup with default `[0,0]`. -/

abbrev BndMap := List (Ind × ℚ × ℚ)

/-- `d[k] += (v, w)`, creating the entry `[0,0]` first when absent. -/
def dictAdd (b : BndMap) (k : Ind) (v w : ℚ) : BndMap :=
  if b.any (fun e => e.1 = k) then
    b.map (fun e => if e.1 = k then (e.1, e.2.1 + v, e.2.2 + w) else e)
  else
    b ++ [(k, v, w)]

/-- Lookup with default `(0, 0)`. -/
def dlook (b : BndMap) (k : Ind) : ℚ × ℚ :=
  match b.find? (fun e => e.1 = k) with
  | some e => e.2
  | none => 0

/-- Total value associated with key `κ` in a raw entry list. -/
def keySum (entries : BndMap) (κ : Ind) : ℚ × ℚ :=
  (entries.map (fun e => if e.1 = κ then e.2 else 0)).sum

/-- Fold of `dictAdd` over a list of raw entries. -/
def dictAddAll (b : BndMap) (entries : BndMap) : BndMap :=
  entries.foldl (fun b e => dictAdd b e.1 e.2.1 e.2.2) b

/-! ### Simulator interface and the Trajectory Worker `LE`

`sim : Pt → SimResult` models `lambda start: sim(start, *args)`: the
opaque integrator together with its fixed extra arguments.  The fields
mirror exactly the record accesses the source makes. -/

/-- The trajectory record returned by one Simulator invocation. -/
structure SimResult where
  /-- `results.PermStorage['Data']` — the visited states, in order. -/
  permData : List Pt
  /-- `results.PermStorage['Step']` — the step sizes, parallel array. -/
  permStep : List ℚ
  /-- `results.TempStorage['Lyapunov'][-1]` — the final signature. -/
  lyap : Sig
  /-- `results.TempStorage['Data'][-1]` — the trajectory endpoint. -/
  endpt : Pt

/-- `np.max(np.abs(le))` (0 for the empty signature). -/
def maxAbs (l : Sig) : ℚ := (l.map (fun x => |x|)).foldl max 0

/-- `t = np.cumsum([0] + Step[:-1])`: elapsed time before step `k`. -/
def tList (steps : List ℚ) : List ℚ :=
  (List.range steps.length).map (fun k => (steps.take k).sum)

/-- `T = t[-1]`: total elapsed time of the trajectory. -/
def trajT (steps : List ℚ) : ℚ := (steps.take (steps.length - 1)).sum

/-- Squared distance between two points (the source compares Euclidean
norms of nonnegative quantities, so comparing squares is equivalent). -/
def ds2 (a b : Pt) : ℚ := (List.zipWith (fun x y => (x - y) ^ 2) a b).sum

/-- Squared grid diagonal `‖grid[:,3]‖²`. -/
def ddiag2 (grid : Grid) : ℚ := (grid.map (fun d => d.w ^ 2)).sum

/-- Corner points of a cube of cell indices, `[ind2pt(ind,grid) for ind in
cube_inds]` (no bound clamping). -/
def cubePts (cube : List Ind) (grid : Grid) : List Pt :=
  cube.map (fun ind => ind2pt0 ind grid)

/-- `if any(ds > ddiag): cube_inds = pt2inds(pt,grid)` — recompute the
surrounding cube when the point has left it. -/
def cubeUpd (grid : Grid) (cube : List Ind) (pt : Pt) : List Ind :=
  if (cubePts cube grid).any (fun c => ddiag2 grid < ds2 pt c) then
    pt2inds pt grid
  else cube

/-- `inbnds`: a corner's coordinates lie within the monitored rectangle
`grid[:,0] ≤ · ≤ grid[:,1]` in every dimension. -/
def inBnds (grid : Grid) (ind : Ind) : Bool :=
  (List.zipWith (fun (x : ℚ) d => decide (d.lo ≤ x ∧ x ≤ d.hi))
    (ind2pt0 ind grid) grid).all id

/-- The raw accumulator entries one trajectory step contributes: for every
in-bounds corner of the current cube, `(exp(-c*tk/T)*dt, dt)`. -/
def stepEntries (E : ℚ → ℚ) (grid : Grid) (c T : ℚ) (cube : List Ind)
    (tk dt : ℚ) : BndMap :=
  (cube.filter (fun ind => inBnds grid ind)).map
    (fun ind => (ind, E (-(c * tk / T)) * dt, dt))

/-- Walk state: the current surrounding cube and the accumulator. -/
structure WalkSt where
  cube : List Ind
  bnd : BndMap

/-- One iteration of the trajectory loop of `LE` (lines 48-72): update the
cube if the point crossed its boundary, then accumulate the decays. -/
def walkStep (E : ℚ → ℚ) (grid : Grid) (c T : ℚ) (st : WalkSt)
    (x : Pt × ℚ × ℚ) : WalkSt :=
  let cube := cubeUpd grid st.cube x.1
  { cube,
    bnd := dictAddAll st.bnd (stepEntries E grid c T cube x.2.1 x.2.2) }

/-- The full trajectory loop of `LE` for one simulation result, threading
the accumulator `bnd0` shared across the group's trajectories. -/
def trajWalk (E : ℚ → ℚ) (grid : Grid) (res : SimResult) (bnd0 : BndMap) :
    BndMap :=
  let c := maxAbs res.lyap
  let T := trajT res.permStep
  let txs := (tList res.permStep).zip res.permStep
  let st0 : WalkSt := { cube := pt2inds (res.permData.headD []) grid,
                        bnd := bnd0 }
  ((res.permData.zip txs).foldl (walkStep E grid c T) st0).bnd

/-- The result quadruple of one `LE` invocation,
`[group_ids, les, endpts, bnd_ind_sum]`. -/
structure LEOut where
  group_ids : List ℤ
  les : List Sig
  endpts : List Pt
  bnd : BndMap

/-- The Trajectory Worker `LE` (lines 10-73): evaluate the center and its
neighbors, run the Simulator on each, record signatures and endpoints and
accumulate the boundary statistics of every trajectory into one map. -/
def LE (E : ℚ → ℚ) (sim : Pt → SimResult) (grid : Grid) (shape : List ℕ)
    (q : ℕ) (r Dinv : ℚ) (center_ind : Ind) : LEOut :=
  let selected := neighbors center_ind grid r q Dinv
  let group_inds := center_ind :: selected
  let group_ids := group_inds.map (fun ind => ind2int ind shape)
  let group_pts := group_inds.map (fun ind => ind2pt ind grid true)
  let results := group_pts.map sim
  { group_ids,
    les := results.map (fun res => res.lyap),
    endpts := results.map (fun res => res.endpt),
    bnd := results.foldl (fun b res => trajWalk E grid res b) [] }

/-! ### Equivalence Registry (spec-modelled)

The registry helpers live in `VISolver.BoA.Utilities`, absent from the
sources; they are modelled from spec §4.2.  The data map collects, per
equivalence class (reference signature), the Cell Ids sampled into it. -/

abbrev DataMap := List (Sig × List ℤ)

/-- Elementwise tolerance match of two signatures (spec §4.2: elementwise
absolute difference at most the tolerance, same length). -/
def sigMatch (eps : ℚ) (a b : Sig) : Bool :=
  a.length = b.length &&
    (List.zipWith (fun x y => decide (|x - y| ≤ eps)) a b).all id

/-- Create the bucket of a class key when absent. -/
def ensureBucket (d : DataMap) (k : Sig) : DataMap :=
  if d.any (fun e => e.1 = k) then d else d ++ [(k, [])]

/-- Modelled from the spec: `update_LERef` of `VISolver.BoA.Utilities`
(§4.2 classify) — match every new signature against the reference list;
on a miss, append it (and its endpoint) as a new class. -/
def update_LERef (ref : Option (List Sig)) (les : List Sig) (eps : ℚ)
    (data : DataMap) (ref_ept : Option (List Pt)) (endpts : List Pt) :
    Option (List Sig) × DataMap × Option (List Pt) :=
  (les.zip endpts).foldl
    (fun acc le_ept =>
      let refs := acc.1.getD []
      let epts := acc.2.2.getD []
      match refs.find? (fun rs => sigMatch eps rs le_ept.1) with
      | some rs => (some refs, ensureBucket acc.2.1 rs, some epts)
      | none =>
          (some (refs ++ [le_ept.1]),
           ensureBucket acc.2.1 le_ept.1,
           some (epts ++ [le_ept.2])))
    (ref, data, ref_ept)

/-- L1 distance between signatures. -/
def l1dist (a b : Sig) : ℚ := (List.zipWith (fun x y => |x - y|) a b).sum

/-- First reference at minimal L1 distance from `le`. -/
def nearestRef (refs : List Sig) (le : Sig) : Sig :=
  match refs with
  | [] => le
  | r0 :: rest =>
      rest.foldl (fun best rs =>
        if l1dist rs le < l1dist best le then rs else best) r0

/-- Modelled from the spec: `adjustLEs2Ref` of `VISolver.BoA.Utilities`
(§4.2 align / §4.5 step 4) — re-attribute each signature to its canonical
class representative. -/
def adjustLEs2Ref (ref : Option (List Sig)) (les : List Sig) : List Sig :=
  match ref with
  | none => les
  | some refs => les.map (fun le => nearestRef refs le)

/-! ### Probability Field update (spec-modelled) -/

/-- `p[id] *= c` for a flat Cell Id (no-op when out of range, mirroring
that in-range ids are the only ones the loop produces). -/
def mulAt (p : List ℚ) (id : ℤ) (c : ℚ) : List ℚ :=
  p.set id.toNat (p.getD id.toNat 0 * c)

/-- Append the Cell Id to the bucket of its class signature. -/
def addSample (d : DataMap) (k : Sig) (id : ℤ) : DataMap :=
  if d.any (fun e => e.1 = k) then
    d.map (fun e => if e.1 = k then (e.1, e.2 ++ [id]) else e)
  else d ++ [(k, [id])]

/-- Modelled from the spec: `update_Prob_Data` of
`VISolver.BoA.Utilities` (§4.4 `updateFromClasses`) — for every sampled
cell of the group, compare its class against the classes of the other
group members (its evaluated neighbors); if any disagrees, the cell is a
boundary cell and its weight is multiplied by `eta_1`, else by `eta_2`;
every disagreeing pair, seen from this cell, increments the boundary-pair
counter; samples are recorded into the data map.
The per-cell step `updStep` handles one sampled cell. -/
def updStep (pairs : List (ℤ × Sig)) (eta_1 eta_2 : ℚ)
    (acc : List ℚ × DataMap × ℕ × Finset ℤ) (m : ℕ) :
    List ℚ × DataMap × ℕ × Finset ℤ :=
  match pairs.get? m with
  | none => acc
  | some pr =>
      let others := ((pairs.enum.filter (fun me => me.1 ≠ m)).map
        (fun me => me.2))
      let disag := others.filter (fun qr => qr.2 ≠ pr.2)
      if disag.isEmpty then
        (mulAt acc.1 pr.1 eta_2, acc.2.1, acc.2.2.1, acc.2.2.2)
      else
        (mulAt acc.1 pr.1 eta_1, acc.2.1,
         acc.2.2.1 + disag.length, acc.2.2.2 ∪ {pr.1})

/-- Modelled from the spec (§4.4): the full per-group probability/data
update — record the samples, then fold `updStep` over the group. -/
def update_Prob_Data (group_ids : List ℤ) (_shape : List ℕ) (_grid : Grid)
    (group_les : List Sig) (_eps : ℚ) (p : List ℚ) (eta_1 eta_2 : ℚ)
    (data : DataMap) : List ℚ × DataMap × ℕ × Finset ℤ :=
  let pairs := group_ids.zip group_les
  let data1 := pairs.foldl (fun d pr => addSample d pr.2 pr.1) data
  (List.range pairs.length).foldl (updStep pairs eta_1 eta_2)
    (p, data1, 0, (∅ : Finset ℤ))

/-! ### Round-level aggregation and field update (source lines 113-148) -/

/-- Merge one worker's accumulator into the round-level accumulator
(lines 117-121: iterate the entries, `master[key] += val`). -/
def mergeGroup (m : BndMap) (g : BndMap) : BndMap := dictAddAll m g

/-- Merge all workers' accumulators (lines 113-121). -/
def mergeAll (gs : List BndMap) : BndMap := gs.foldl mergeGroup []

/-- Lines 145-147: `p[ind2int(key,shape)] *= val[0]/val[1]` for every
entry of the round-level accumulator. -/
def applyAccum (shape : List ℕ) (master : BndMap) (p : List ℚ) : List ℚ :=
  master.foldl (fun p e => mulAt p (ind2int e.1 shape) (e.2.1 / e.2.2)) p

/-- Line 148: `p = p/np.sum(p)`. -/
def normalize (p : List ℚ) : List ℚ := p.map (fun x => x / p.sum)

/-! ### The Sampling Loop `MCT` (source lines 76-154) -/

/-- The static configuration of one `MCT` run.  `E` models `np.exp`;
`sim` models the Simulator applied to its fixed `args`; `draws k` is the
oracle for the outcome of `np.random.choice` at iteration `k` (the
embedding of the random draw); `nodes`/`parallel` are dropped because the
pool only distributes the pure `LE` calls. -/
structure MCTCfg where
  E : ℚ → ℚ
  sim : Pt → SimResult
  grid : Grid
  limit : ℤ
  AVG : ℚ
  eta_1 : ℚ
  eta_2 : ℚ
  eps : ℚ
  L : ℕ
  q : ℕ
  r : ℚ
  Dinv : ℚ
  draws : ℕ → List ℕ

/-- The mutable Run State of the loop.  `avg = none` encodes `np.inf`
(the initial value of the convergence statistic). -/
structure MCTState where
  ref : Option (List Sig)
  ref_ept : Option (List Pt)
  data : DataMap
  p : List ℚ
  B_pairs : ℕ
  bndry : Finset ℤ
  starts : Finset ℕ
  i : ℕ
  avg : Option ℚ

/-- Initial state (lines 79-97): uniform field, empty records, `i = 0`,
`avg = np.inf`. -/
def initState (cfg : MCTCfg) : MCTState :=
  let N := (gridShape cfg.grid).prod
  { ref := none, ref_ept := none, data := [],
    p := List.replicate N ((N : ℚ))⁻¹,
    B_pairs := 0, bndry := ∅, starts := ∅, i := 0, avg := none }

/-- `avg > AVG` where `avg` may be `np.inf`. -/
def avgGt (avg : Option ℚ) (thr : ℚ) : Bool :=
  match avg with
  | none => true
  | some x => thr < x

/-- The loop guard of line 98: `(i < limit) and (avg > AVG)`. -/
def guardB (cfg : MCTCfg) (s : MCTState) : Bool :=
  (s.i : ℤ) < cfg.limit && avgGt s.avg cfg.AVG

/-- The per-group accumulation step of lines 136-143: thread the
Probability Field and data map through `update_Prob_Data`, add the
boundary pairs, and collect the boundary Cell Ids. -/
def probStep (cfg : MCTCfg) (shape : List ℕ)
    (acc : List ℚ × DataMap × ℕ × Finset ℤ) (g : LEOut) :
    List ℚ × DataMap × ℕ × Finset ℤ :=
  let res := update_Prob_Data g.group_ids shape cfg.grid g.les cfg.eps
    acc.1 cfg.eta_1 cfg.eta_2 acc.2.1
  (res.1, res.2.1, acc.2.2.1 + res.2.2.1, acc.2.2.2 ∪ res.2.2.2)

/-- One iteration of the sampling loop (lines 99-153): draw the centers,
run `LE` on each, aggregate the boundary accumulators, update the
registry, re-attribute the signatures, update the Probability Field per
group and then along the trajectories, renormalize, and update the
counters. -/
def loopIter (cfg : MCTCfg) (s : MCTState) : MCTState :=
  let shape := gridShape cfg.grid
  let center_ids := cfg.draws s.i
  let starts := s.starts ∪ center_ids.toFinset
  let center_inds := center_ids.map (fun cid => int2ind cid shape)
  let groups := center_inds.map
    (fun ind => LE cfg.E cfg.sim cfg.grid shape cfg.q cfg.r cfg.Dinv ind)
  let master := mergeAll (groups.map (fun g => g.bnd))
  let rde := groups.foldl
    (fun acc g => update_LERef acc.1 g.les cfg.eps acc.2.1 acc.2.2 g.endpts)
    (s.ref, s.data, s.ref_ept)
  let ref := rde.1
  let groups2 := groups.map
    (fun g => { g with les := adjustLEs2Ref ref g.les })
  let upd := groups2.foldl (probStep cfg shape)
    (s.p, rde.2.1, s.B_pairs, (∅ : Finset ℤ))
  let p2 := normalize (applyAccum shape master upd.1)
  let i2 := s.i + 1
  { ref, ref_ept := rde.2.2, data := upd.2.1, p := p2,
    B_pairs := upd.2.2.1,
    bndry := s.bndry ∪ upd.2.2.2,
    starts,
    i := i2,
    avg := some ((upd.2.2.1 : ℚ) /
      (((cfg.q : ℚ) + 1) * (cfg.L : ℚ) * (i2 : ℚ))) }

/-- The Probability Field an iteration computes just before the final
renormalization of line 148 (same let-chain as `loopIter`). -/
def iterField (cfg : MCTCfg) (s : MCTState) : List ℚ :=
  let shape := gridShape cfg.grid
  let center_ids := cfg.draws s.i
  let center_inds := center_ids.map (fun cid => int2ind cid shape)
  let groups := center_inds.map
    (fun ind => LE cfg.E cfg.sim cfg.grid shape cfg.q cfg.r cfg.Dinv ind)
  let master := mergeAll (groups.map (fun g => g.bnd))
  let rde := groups.foldl
    (fun acc g => update_LERef acc.1 g.les cfg.eps acc.2.1 acc.2.2 g.endpts)
    (s.ref, s.data, s.ref_ept)
  let ref := rde.1
  let groups2 := groups.map
    (fun g => { g with les := adjustLEs2Ref ref g.les })
  let upd := groups2.foldl (probStep cfg shape)
    (s.p, rde.2.1, s.B_pairs, (∅ : Finset ℤ))
  applyAccum shape master upd.1

/-- The field produced by one loop iteration is the renormalized
pre-normalization field. -/
lemma loopIter_p (cfg : MCTCfg) (s : MCTState) :
    (loopIter cfg s).p = normalize (iterField cfg s) := rfl

/-- The `while` loop of line 98, fuel-indexed; `MCT` supplies fuel
`limit.toNat`, which the guard `i < limit` makes exact. -/
def mctLoop (cfg : MCTCfg) : ℕ → MCTState → MCTState
  | 0, s => s
  | fuel + 1, s => if guardB cfg s then mctLoop cfg fuel (loopIter cfg s) else s

/-- The result tuple of line 154:
`ref, data, p, i, avg, bndry_ids_master, starts`. -/
abbrev MCTResult :=
  Option (List Sig) × DataMap × List ℚ × ℕ × Option ℚ × Finset ℤ × Finset ℕ

/-- The Sampling Loop `MCT` (lines 76-154). -/
def MCT (cfg : MCTCfg) : MCTResult :=
  let s := mctLoop cfg cfg.limit.toNat (initState cfg)
  (s.ref, s.data, s.p, s.i, s.avg, s.bndry, s.starts)

/-! ### Concrete instances used by witnesses -/

/-- A 1-dimensional grid over `[0,1]` with two cells of width 1. -/
def exGrid : Grid := [⟨0, 1, 2, 1⟩]

/-- A Simulator stub: a single-step trajectory resting at `[1/2]` with
signature `[0]`. -/
def exSim : Pt → SimResult :=
  fun _ => { permData := [[1/2]], permStep := [1], lyap := [0], endpt := [1/2] }

/-- A draw oracle that always picks Cell Id 0. -/
def exDraws : ℕ → List ℕ := fun _ => [0]

/-- A small well-behaved configuration. -/
def exCfg : MCTCfg :=
  { E := fun _ => 1, sim := exSim, grid := exGrid, limit := 1,
    AVG := 1/100, eta_1 := 12/10, eta_2 := 19/20, eps := 1,
    L := 1, q := 1, r := 2, Dinv := 1, draws := exDraws }

/-! ### C1: the result tuple -/

/-- C1: on termination `MCT` returns the result tuple of line 154 — the
Equivalence Registry's reference signatures (`ref`), the data map
(class → collected samples), the final Probability Field (`p`), the
iteration count (`i`), the final convergence statistic (`avg`), the set
of identified boundary Cell Ids (`bndry`), plus the set of all sampled
Cell Ids (`starts`) — each component being the corresponding field of
the loop's final Run State. -/
theorem claim_C1_result_tuple (cfg : MCTCfg) :
    MCT cfg = ((mctLoop cfg cfg.limit.toNat (initState cfg)).ref,
      (mctLoop cfg cfg.limit.toNat (initState cfg)).data,
      (mctLoop cfg cfg.limit.toNat (initState cfg)).p,
      (mctLoop cfg cfg.limit.toNat (initState cfg)).i,
      (mctLoop cfg cfg.limit.toNat (initState cfg)).avg,
      (mctLoop cfg cfg.limit.toNat (initState cfg)).bndry,
      (mctLoop cfg cfg.limit.toNat (initState cfg)).starts) := rfl

/-! ### C2: the running convergence statistic -/

/-- One iteration sets `avg = B_pairs / ((q+1)*L*i)` with the updated
cumulative pair count and iteration index (lines 150-152). -/
lemma loopIter_avg (cfg : MCTCfg) (s : MCTState) :
    (loopIter cfg s).avg
      = some (((loopIter cfg s).B_pairs : ℚ) /
          (((cfg.q : ℚ) + 1) * (cfg.L : ℚ) * ((loopIter cfg s).i : ℚ))) := rfl

lemma loopIter_i (cfg : MCTCfg) (s : MCTState) :
    (loopIter cfg s).i = s.i + 1 := rfl

/-- The avg-formula invariant is preserved by the loop. -/
lemma mctLoop_avgInv (cfg : MCTCfg) :
    ∀ (fuel : ℕ) (s : MCTState),
      (1 ≤ s.i → s.avg = some ((s.B_pairs : ℚ) /
        (((cfg.q : ℚ) + 1) * (cfg.L : ℚ) * (s.i : ℚ)))) →
      (1 ≤ (mctLoop cfg fuel s).i → (mctLoop cfg fuel s).avg
        = some (((mctLoop cfg fuel s).B_pairs : ℚ) /
            (((cfg.q : ℚ) + 1) * (cfg.L : ℚ) * ((mctLoop cfg fuel s).i : ℚ)))) := by
  intro fuel
  induction fuel with
  | zero => intro s h; exact h
  | succ fuel ih =>
      intro s h
      rw [mctLoop]
      by_cases hg : guardB cfg s
      · rw [if_pos hg]
        exact ih (loopIter cfg s) (fun _ => loopIter_avg cfg s)
      · rw [if_neg hg]; exact h

/-- C2: after every completed iteration `k ≥ 1` of the Sampling Loop the
running convergence statistic equals
`cumulativeBoundaryPairs / ((q+1) * L * k)`, where `k` is the number of
completed iterations (the state's iteration counter). -/
theorem claim_C2_avg_formula (cfg : MCTCfg) (fuel : ℕ)
    (h : 1 ≤ (mctLoop cfg fuel (initState cfg)).i) :
    (mctLoop cfg fuel (initState cfg)).avg
      = some (((mctLoop cfg fuel (initState cfg)).B_pairs : ℚ) /
          (((cfg.q : ℚ) + 1) * (cfg.L : ℚ) *
            ((mctLoop cfg fuel (initState cfg)).i : ℚ))) := by
  refine mctLoop_avgInv cfg fuel (initState cfg) ?_ h
  intro h0
  exact absurd h0 (by simp [initState])

/-- Witness for C2 at the concrete configuration `exCfg`: one iteration
completes, and the statistic obeys the formula. -/
theorem claim_C2_witness :
    1 ≤ (mctLoop exCfg 1 (initState exCfg)).i ∧
    (mctLoop exCfg 1 (initState exCfg)).avg
      = some (((mctLoop exCfg 1 (initState exCfg)).B_pairs : ℚ) /
          (((exCfg.q : ℚ) + 1) * (exCfg.L : ℚ) *
            ((mctLoop exCfg 1 (initState exCfg)).i : ℚ))) := by
  have hi : 1 ≤ (mctLoop exCfg 1 (initState exCfg)).i := by
    have hg : guardB exCfg (initState exCfg) = true := by
      simp [guardB, avgGt, initState, exCfg]
    rw [mctLoop, if_pos hg, mctLoop, loopIter_i]
    exact Nat.le_add_left 1 _
  exact ⟨hi, claim_C2_avg_formula exCfg 1 hi⟩

/-! ### C3: the loop guard -/

/-- C3: with enough fuel (which `MCT` always supplies, since the guard
`i < limit` bounds the iteration count by `limit.toNat`), the loop begins
a new iteration exactly when `i < limit` and the statistic still exceeds
the threshold (`avgGt s.avg AVG`, where the initial `np.inf` exceeds
everything), and performs none once `i ≥ limit` or `avg ≤ AVG`. -/
theorem claim_C3_guard (cfg : MCTCfg) (fuel : ℕ) (s : MCTState)
    (hfuel : cfg.limit ≤ (s.i : ℤ) + (fuel : ℤ)) :
    (((s.i : ℤ) < cfg.limit ∧ avgGt s.avg cfg.AVG = true) →
        mctLoop cfg fuel s = mctLoop cfg (fuel - 1) (loopIter cfg s)) ∧
    ((cfg.limit ≤ (s.i : ℤ) ∨ avgGt s.avg cfg.AVG = false) →
        mctLoop cfg fuel s = s) := by
  cases fuel with
  | zero =>
      constructor
      · rintro ⟨hlt, -⟩; omega
      · intro _; rfl
  | succ fuel =>
      constructor
      · rintro ⟨hlt, havg⟩
        have hg : guardB cfg s = true := by
          simp [guardB, havg, hlt]
        rw [mctLoop, if_pos hg]
        rfl
      · intro h
        have hg : guardB cfg s = false := by
          rcases h with h | h
          · simp [guardB]; intro hlt; omega
          · simp [guardB, h]
        rw [mctLoop, if_neg (by simp [hg])]

/-- Witness for C3 at `exCfg` from the initial state with fuel 1. -/
theorem claim_C3_witness :
    (exCfg.limit ≤ ((initState exCfg).i : ℤ) + ((1 : ℕ) : ℤ)) ∧
    (((((initState exCfg).i : ℤ) < exCfg.limit ∧
          avgGt (initState exCfg).avg exCfg.AVG = true) →
        mctLoop exCfg 1 (initState exCfg)
          = mctLoop exCfg (1 - 1) (loopIter exCfg (initState exCfg))) ∧
      ((exCfg.limit ≤ ((initState exCfg).i : ℤ) ∨
          avgGt (initState exCfg).avg exCfg.AVG = false) →
        mctLoop exCfg 1 (initState exCfg) = initState exCfg)) := by
  have hfuel : exCfg.limit ≤ ((initState exCfg).i : ℤ) + ((1 : ℕ) : ℤ) := by
    simp [exCfg, initState]
  exact ⟨hfuel, claim_C3_guard exCfg 1 (initState exCfg) hfuel⟩

/-! ### C10: no iterations when the limit is non-positive -/

/-- C10: if `iterationLimit ≤ 0` then `MCT` performs no iterations and
returns registry `None`, an empty data map, the uniform Probability
Field, iteration count 0, convergence statistic `np.inf` (encoded
`none`), and empty boundary and sampled Cell Id sets. -/
theorem claim_C10_nonpositive_limit (cfg : MCTCfg) (h : cfg.limit ≤ 0) :
    MCT cfg = (none, [],
      List.replicate ((gridShape cfg.grid).prod)
        (((gridShape cfg.grid).prod : ℚ))⁻¹,
      0, none, ∅, ∅) := by
  have h0 : cfg.limit.toNat = 0 := Int.toNat_of_nonpos h
  simp [MCT, h0, mctLoop, initState]

/-- A copy of `exCfg` with `limit = 0`. -/
def exCfgL0 : MCTCfg := { exCfg with limit := 0 }

/-- Witness for C10 at `limit = 0`. -/
theorem claim_C10_witness :
    exCfgL0.limit ≤ 0 ∧
    MCT exCfgL0 = (none, [],
      List.replicate ((gridShape exCfgL0.grid).prod)
        (((gridShape exCfgL0.grid).prod : ℚ))⁻¹,
      0, none, ∅, ∅) :=
  ⟨by decide, claim_C10_nonpositive_limit exCfgL0 (by decide)⟩

/-! ### Characterization of the accumulator dictionaries -/

/-- The value update of `dictAdd` leaves every key unchanged, so the
key-search predicate composed with it is the key-search predicate. -/
lemma valupd_comp (k : Ind) (v w : ℚ) (κ : Ind) :
    ((fun (e : Ind × ℚ × ℚ) => decide (e.1 = κ)) ∘
        (fun (e : Ind × ℚ × ℚ) =>
          if e.1 = k then (e.1, e.2.1 + v, e.2.2 + w) else e))
      = fun (e : Ind × ℚ × ℚ) => decide (e.1 = κ) := by
  funext e
  by_cases h : e.1 = k <;> simp [h]

/-- Lookup after one dictionary accumulation step. -/
lemma dlook_dictAdd (b : BndMap) (k : Ind) (v w : ℚ) (κ : Ind) :
    dlook (dictAdd b k v w) κ
      = dlook b κ + (if κ = k then (v, w) else 0) := by
  by_cases hb : b.any (fun e => e.1 = k)
  · rcases hf : b.find? (fun e => e.1 = κ) with - | e
    · by_cases hκ : κ = k
      · exfalso
        rcases List.any_eq_true.mp hb with ⟨e, he, hek⟩
        have hno : ¬ (e.1 = κ) := by
          simpa using (List.find?_eq_none.mp hf) e he
        exact hno (by rw [hκ]; simpa using hek)
      · simp [dictAdd, hb, dlook, List.find?_map, valupd_comp, hf, hκ]
    · have heκ : e.1 = κ := by simpa using List.find?_some hf
      by_cases hκ : κ = k
      · subst hκ
        simp [dictAdd, hb, dlook, List.find?_map, valupd_comp, hf, heκ,
          Prod.ext_iff]
      · have hek : ¬ (e.1 = k) := by rw [heκ]; exact hκ
        simp [dictAdd, hb, dlook, List.find?_map, valupd_comp, hf, hek, hκ]
  · have hnone : b.find? (fun e => e.1 = k) = none := by
      rw [List.find?_eq_none]
      intro x hx
      simp only [decide_eq_true_eq]
      intro hxk
      exact hb (List.any_eq_true.mpr ⟨x, hx, by simpa using hxk⟩)
    by_cases hκ : κ = k
    · subst hκ
      simp [dictAdd, hb, dlook, List.find?_append, hnone]
    · have hκ2 : ¬ (k = κ) := fun h => hκ h.symm
      rcases hf : b.find? (fun e => e.1 = κ) with - | e
      · simp [dictAdd, hb, dlook, List.find?_append, hf, hκ, hκ2]
      · simp [dictAdd, hb, dlook, List.find?_append, hf, hκ, hκ2]

/-- Lookup after folding a raw entry list into the dictionary. -/
lemma dlook_dictAddAll (κ : Ind) :
    ∀ (entries : BndMap) (b : BndMap),
      dlook (dictAddAll b entries) κ = dlook b κ + keySum entries κ := by
  intro entries
  induction entries with
  | nil => intro b; simp [dictAddAll, keySum]
  | cons e rest ih =>
      intro b
      rw [dictAddAll, List.foldl_cons]
      have : rest.foldl (fun b e => dictAdd b e.1 e.2.1 e.2.2)
          (dictAdd b e.1 e.2.1 e.2.2)
          = dictAddAll (dictAdd b e.1 e.2.1 e.2.2) rest := rfl
      rw [this, ih, dlook_dictAdd]
      have hkey : (if κ = e.1 then ((e.2.1, e.2.2) : ℚ × ℚ) else 0)
          = (if e.1 = κ then e.2 else 0) := by
        by_cases h : κ = e.1
        · simp [h]
        · have h2 : ¬ (e.1 = κ) := fun hh => h hh.symm
          simp [h, h2]
      have hcons : keySum (e :: rest) κ
          = (if e.1 = κ then e.2 else 0) + keySum rest κ := by
        simp [keySum]
      rw [hcons, hkey, add_assoc]

/-- Lookup in the round-level merged accumulator: the per-key total over
all workers' entries. -/
lemma dlook_mergeAll (gs : List BndMap) (κ : Ind) :
    dlook (mergeAll gs) κ = (gs.map (fun g => keySum g κ)).sum := by
  suffices h : ∀ (gs : List BndMap) (b : BndMap),
      dlook (gs.foldl mergeGroup b) κ
        = dlook b κ + (gs.map (fun g => keySum g κ)).sum by
    have := h gs []
    simpa [mergeAll, dlook] using this
  intro gs
  induction gs with
  | nil => intro b; simp
  | cons g rest ih =>
      intro b
      rw [List.foldl_cons, ih, mergeGroup, dlook_dictAddAll, List.map_cons,
        List.sum_cons, add_assoc]

/-! ### C9: order-independence of the round-level aggregation -/

/-- C9: the round-level Boundary Accumulator obtained by merging the
per-worker accumulators (lines 113-121) does not depend on the order of
the worker results: for any permutation of the batch, the aggregated
`(weighted_decay, weight)` sums agree at every Cell Index. -/
theorem claim_C9_merge_perm (gs gsPerm : List BndMap)
    (h : gs.Perm gsPerm) (κ : Ind) :
    dlook (mergeAll gs) κ = dlook (mergeAll gsPerm) κ := by
  rw [dlook_mergeAll, dlook_mergeAll]
  exact List.Perm.sum_eq (h.map _)

/-- Witness for C9: two concrete worker outputs merged in both orders. -/
theorem claim_C9_witness :
    ([[([0], (1 : ℚ), 2)], [([0], (3 : ℚ), 4), ([1], 1, 1)]].Perm
      [[([0], (3 : ℚ), 4), ([1], 1, 1)], [([0], (1 : ℚ), 2)]]) ∧
    dlook (mergeAll [[([0], (1 : ℚ), 2)], [([0], (3 : ℚ), 4), ([1], 1, 1)]]) [0]
      = dlook (mergeAll
          [[([0], (3 : ℚ), 4), ([1], 1, 1)], [([0], (1 : ℚ), 2)]]) [0] :=
  ⟨List.Perm.swap _ _ _,
   claim_C9_merge_perm _ _ (List.Perm.swap _ _ _) [0]⟩

/-! ### C8: the per-cell effect of the accumulator update (lines 144-148) -/

lemma getD_set_self (l : List ℚ) (i : ℕ) (v : ℚ) (h : i < l.length) :
    (l.set i v).getD i 0 = v := by
  simp [List.getD_eq_getElem?_getD, List.getElem?_set_self h]

lemma getD_set_ne (l : List ℚ) (i j : ℕ) (v : ℚ) (h : i ≠ j) :
    (l.set i v).getD j 0 = l.getD j 0 := by
  simp [List.getD_eq_getElem?_getD, List.getElem?_set_ne h]

/-- The multiplicative factor the accumulator applies to flat Cell Id
`j`: `val[0]/val[1]` when `j` carries an accumulator entry, else 1. -/
def accFactor (shape : List ℕ) (master : BndMap) (j : ℕ) : ℚ :=
  match master.find? (fun e => (ind2int e.1 shape).toNat = j) with
  | some e => e.2.1 / e.2.2
  | none => 1

lemma mulAt_length (p : List ℚ) (id : ℤ) (c : ℚ) :
    (mulAt p id c).length = p.length := by
  simp [mulAt]

lemma applyAccum_length (shape : List ℕ) :
    ∀ (master : BndMap) (p : List ℚ),
      (applyAccum shape master p).length = p.length := by
  intro master
  induction master with
  | nil => intro p; rfl
  | cons e rest ih =>
      intro p
      rw [applyAccum, List.foldl_cons]
      have : rest.foldl
          (fun p e => mulAt p (ind2int e.1 shape) (e.2.1 / e.2.2))
          (mulAt p (ind2int e.1 shape) (e.2.1 / e.2.2))
          = applyAccum shape rest (mulAt p (ind2int e.1 shape)
              (e.2.1 / e.2.2)) := rfl
      rw [this, ih, mulAt_length]

lemma applyAccum_getD (shape : List ℕ) :
    ∀ (master : BndMap) (p : List ℚ),
      (master.map (fun e => (ind2int e.1 shape).toNat)).Nodup →
      (∀ e ∈ master, (ind2int e.1 shape).toNat < p.length) →
      ∀ j, j < p.length →
        (applyAccum shape master p).getD j 0
          = p.getD j 0 * accFactor shape master j := by
  intro master
  induction master with
  | nil => intro p _ _ j _; simp [applyAccum, accFactor]
  | cons e rest ih =>
      intro p hnd hrange j hj
      have hi : (ind2int e.1 shape).toNat < p.length :=
        hrange e (List.mem_cons_self e rest)
      have hstep : applyAccum shape (e :: rest) p
          = applyAccum shape rest (mulAt p (ind2int e.1 shape)
              (e.2.1 / e.2.2)) := rfl
      have hlen : (mulAt p (ind2int e.1 shape) (e.2.1 / e.2.2)).length
          = p.length := mulAt_length p _ _
      have ihx := ih (mulAt p (ind2int e.1 shape) (e.2.1 / e.2.2))
        (by simpa using hnd.of_cons)
        (fun e2 he2 => by rw [hlen]; exact hrange e2 (List.mem_cons_of_mem e he2))
        j (by rw [hlen]; exact hj)
      rw [hstep, ihx]
      by_cases hji : (ind2int e.1 shape).toNat = j
      · have hrest : accFactor shape rest j = 1 := by
          rw [accFactor, List.find?_eq_none.mpr]
          intro e2 he2
          simp only [decide_eq_true_eq]
          intro hcontra
          have : (ind2int e.1 shape).toNat
              ∉ rest.map (fun e => (ind2int e.1 shape).toNat) :=
            (List.nodup_cons.mp hnd).1
          exact this (by rw [hji, ← hcontra] at *; exact List.mem_map_of_mem _ he2)
        have hhead : accFactor shape (e :: rest) j = e.2.1 / e.2.2 := by
          rw [accFactor, List.find?_cons_of_pos _ (by simpa using hji)]
        have hget : (mulAt p (ind2int e.1 shape) (e.2.1 / e.2.2)).getD j 0
            = p.getD j 0 * (e.2.1 / e.2.2) := by
          rw [mulAt, ← hji, getD_set_self _ _ _ (by rw [hji]; exact hj)]
        rw [hrest, hget, hhead, mul_one]
      · have hhead : accFactor shape (e :: rest) j = accFactor shape rest j := by
          rw [accFactor, List.find?_cons_of_neg _ (by simpa using hji)]
          rfl
        have hget : (mulAt p (ind2int e.1 shape) (e.2.1 / e.2.2)).getD j 0
            = p.getD j 0 := by
          rw [mulAt, getD_set_ne _ _ _ _ hji]
        rw [hhead, hget]

lemma getD_map_div (q : List ℚ) (S : ℚ) (j : ℕ) (h : j < q.length) :
    (q.map (fun x => x / S)).getD j 0 = q.getD j 0 / S := by
  simp [List.getD_eq_getElem?_getD, List.getElem?_eq_getElem h]

/-- Renormalization yields a field of total mass 1 whenever the total
mass being divided by is nonzero. -/
lemma normalize_sum (p : List ℚ) (h : p.sum ≠ 0) : (normalize p).sum = 1 := by
  rw [normalize]
  have hs : (p.map (fun x => x / p.sum)).sum = p.sum * (p.sum)⁻¹ := by
    simp only [div_eq_mul_inv]
    have := List.sum_map_mul_right p (fun x => x) (p.sum)⁻¹
    simpa using this
  rw [hs, mul_inv_cancel₀ h]

/-- C8: after the class-based update, the loop multiplies the weight of
every Cell Id that has a Boundary Accumulator entry by
`accumulated_decay / accumulated_weight` and renormalizes the whole field
(sum 1 whenever the divided-by mass is nonzero); a cell with no entry has
`accFactor = 1`, i.e. is changed only by the final renormalization. -/
theorem claim_C8_boundary_update (shape : List ℕ) (master : BndMap)
    (p : List ℚ)
    (hnd : (master.map (fun e => (ind2int e.1 shape).toNat)).Nodup)
    (hrange : ∀ e ∈ master, (ind2int e.1 shape).toNat < p.length) :
    (∀ j, j < p.length →
      (applyAccum shape master p).getD j 0
        = p.getD j 0 * accFactor shape master j ∧
      (normalize (applyAccum shape master p)).getD j 0
        = p.getD j 0 * accFactor shape master j
            / (applyAccum shape master p).sum) ∧
    ((applyAccum shape master p).sum ≠ 0 →
      (normalize (applyAccum shape master p)).sum = 1) := by
  constructor
  · intro j hj
    have h1 := applyAccum_getD shape master p hnd hrange j hj
    refine ⟨h1, ?_⟩
    have hj2 : j < (applyAccum shape master p).length := by
      rw [applyAccum_length]; exact hj
    rw [normalize, getD_map_div _ _ _ hj2, h1]
  · exact normalize_sum _

/-- Witness for C8 on a concrete field and accumulator. -/
theorem claim_C8_witness :
    (([([0], (1 : ℚ), 2)] : BndMap).map
      (fun e => (ind2int e.1 [2]).toNat)).Nodup ∧
    (∀ e ∈ ([([0], (1 : ℚ), 2)] : BndMap),
      (ind2int e.1 [2]).toNat < ([1/2, 1/2] : List ℚ).length) ∧
    ((applyAccum [2] [([0], (1 : ℚ), 2)] [1/2, 1/2]).getD 0 0
      = ([1/2, 1/2] : List ℚ).getD 0 0 * accFactor [2] [([0], (1 : ℚ), 2)] 0 ∧
     (normalize (applyAccum [2] [([0], (1 : ℚ), 2)] [1/2, 1/2])).getD 0 0
      = ([1/2, 1/2] : List ℚ).getD 0 0 * accFactor [2] [([0], (1 : ℚ), 2)] 0
          / (applyAccum [2] [([0], (1 : ℚ), 2)] [1/2, 1/2]).sum) := by
  refine ⟨by decide, by decide, ?_⟩
  exact (claim_C8_boundary_update [2] [([0], (1 : ℚ), 2)] [1/2, 1/2]
    (by decide) (by decide)).1 0 (by decide)

/-! ### C7: what one trajectory contributes to the accumulator -/

/-- The cartesian product of duplicate-free lists is duplicate-free. -/
lemma prodLists_nodup :
    ∀ ls : List (List ℤ), (∀ l ∈ ls, l.Nodup) → (prodLists ls).Nodup := by
  intro ls
  induction ls with
  | nil => intro _; simp [prodLists]
  | cons xs rest ih =>
      intro h
      rw [prodLists, List.nodup_flatMap]
      constructor
      · intro x _
        exact (ih (fun l hl => h l (List.mem_cons_of_mem xs hl))).map
          (fun a b hab => ((List.cons.injEq x a x b).mp hab).2)
      · have hxs : xs.Nodup := h xs (List.mem_cons_self xs rest)
        refine hxs.imp ?_
        intro a b hab z hza hzb
        rcases List.mem_map.mp hza with ⟨ta, -, rfl⟩
        rcases List.mem_map.mp hzb with ⟨tb, -, htb⟩
        exact hab ((List.cons.injEq b tb a ta).mp htb).1.symm

/-- Each per-dimension candidate list built by `pt2inds` is a
floor/floor+1 pair. -/
lemma mem_zipWith_floorpair :
    ∀ (pt : Pt) (grid : Grid) (l : List ℤ),
      l ∈ List.zipWith
        (fun (x : ℚ) d =>
          [(Int.floor ((x - d.lo) / d.w) : ℤ), Int.floor ((x - d.lo) / d.w) + 1])
        pt grid →
      ∃ i : ℤ, l = [i, i + 1] := by
  intro pt
  induction pt with
  | nil => intro grid l h; simp at h
  | cons x xs ih =>
      intro grid l h
      cases grid with
      | nil => simp at h
      | cons d ds =>
          rcases List.mem_cons.mp h with h | h
          · exact ⟨_, h⟩
          · exact ih ds l h

/-- The surrounding-cube corner list has no duplicates. -/
lemma pt2inds_nodup (pt : Pt) (grid : Grid) : (pt2inds pt grid).Nodup := by
  rw [pt2inds]
  refine prodLists_nodup _ ?_
  intro l hl
  rcases mem_zipWith_floorpair pt grid l hl with ⟨i, rfl⟩
  simp

lemma cubeUpd_nodup (grid : Grid) (cube : List Ind) (pt : Pt)
    (h : cube.Nodup) : (cubeUpd grid cube pt).Nodup := by
  rw [cubeUpd]
  split
  · exact pt2inds_nodup pt grid
  · exact h

/-- The cube used at each trajectory step (after the in-step update). -/
def cubesUsed (grid : Grid) : List Ind → List Pt → List (List Ind)
  | _, [] => []
  | cube, pt :: pts =>
      cubeUpd grid cube pt :: cubesUsed grid (cubeUpd grid cube pt) pts

/-- What one trajectory step contributes to corner `κ`: the pair
`(exp(-c*tk/T)*dt, dt)` when `κ` is an in-rectangle corner of the current
cube, nothing otherwise. -/
def stepContrib (E : ℚ → ℚ) (grid : Grid) (c T : ℚ) (κ : Ind)
    (cube : List Ind) (tk dt : ℚ) : ℚ × ℚ :=
  if κ ∈ cube.filter (fun ind => inBnds grid ind) then
    (E (-(c * tk / T)) * dt, dt)
  else 0

/-- Sum of a one-point indicator over a duplicate-free list. -/
lemma indicator_sum (κ : Ind) (pr : ℚ × ℚ) :
    ∀ l : List Ind, l.Nodup →
      (l.map (fun x => if x = κ then pr else 0)).sum
        = if κ ∈ l then pr else 0 := by
  intro l
  induction l with
  | nil => intro _; simp
  | cons x xs ih =>
      intro h
      rcases List.nodup_cons.mp h with ⟨hx, hxs⟩
      rw [List.map_cons, List.sum_cons, ih hxs]
      by_cases hxκ : x = κ
      · subst hxκ
        have hmem : x ∉ xs := hx
        simp [hmem]
      · have hκx : ¬ (κ = x) := fun hh => hxκ hh.symm
        simp [hxκ, hκx, List.mem_cons]

/-- The per-key total of one step's raw entries is its contribution. -/
lemma keySum_stepEntries (E : ℚ → ℚ) (grid : Grid) (c T : ℚ) (κ : Ind)
    (cube : List Ind) (tk dt : ℚ) (h : cube.Nodup) :
    keySum (stepEntries E grid c T cube tk dt) κ
      = stepContrib E grid c T κ cube tk dt := by
  rw [keySum, stepEntries, List.map_map]
  have hfun : ((fun (e : Ind × ℚ × ℚ) => if e.1 = κ then e.2 else 0) ∘
      (fun ind => (ind, E (-(c * tk / T)) * dt, dt)))
      = fun (ind : Ind) =>
          if ind = κ then ((E (-(c * tk / T)) * dt, dt) : ℚ × ℚ) else 0 := by
    funext ind
    by_cases hi : ind = κ <;> simp [hi]
  rw [hfun, indicator_sum κ _ _ (h.filter _), stepContrib]

/-- Unrolled characterization of the trajectory fold of `LE`. -/
lemma walk_fold (E : ℚ → ℚ) (grid : Grid) (c T : ℚ) (κ : Ind) :
    ∀ (pts : List Pt) (txs : List (ℚ × ℚ)) (cube : List Ind) (bnd : BndMap),
      cube.Nodup →
      dlook (((pts.zip txs).foldl (walkStep E grid c T) ⟨cube, bnd⟩).bnd) κ
        = dlook bnd κ
          + ((List.zip (cubesUsed grid cube pts) txs).map
              (fun z => stepContrib E grid c T κ z.1 z.2.1 z.2.2)).sum := by
  intro pts
  induction pts with
  | nil => intro txs cube bnd _; simp [cubesUsed]
  | cons pt pts ih =>
      intro txs cube bnd h
      cases txs with
      | nil => simp [cubesUsed]
      | cons tx txs =>
          rw [List.zip_cons_cons, List.foldl_cons]
          have hstep : walkStep E grid c T ⟨cube, bnd⟩ (pt, tx)
              = ⟨cubeUpd grid cube pt,
                 dictAddAll bnd (stepEntries E grid c T
                   (cubeUpd grid cube pt) tx.1 tx.2)⟩ := rfl
          rw [hstep, ih txs _ _ (cubeUpd_nodup grid cube pt h),
            dlook_dictAddAll,
            keySum_stepEntries _ _ _ _ _ _ _ _ (cubeUpd_nodup grid cube pt h)]
          rw [cubesUsed, List.zip_cons_cons, List.map_cons, List.sum_cons,
            add_assoc]

/-- C7: for each trajectory processed by the Trajectory Worker (the
`trajWalk` loop that `LE` runs per simulation result), with `c` the
maximum-magnitude component of the trajectory's Signature
(`maxAbs res.lyap`) and `T` its total elapsed time (`trajT`), every grid
corner accumulates exactly the pairs `(exp(-c*t/T)*dt, dt)` over the
steps at which it is a corner of the current surrounding cube lying
within the monitored rectangle (`stepContrib`); corners never touched
keep their prior accumulator value. -/
theorem claim_C7_trajectory_accumulation (E : ℚ → ℚ) (grid : Grid)
    (res : SimResult) (bnd0 : BndMap) (κ : Ind) :
    dlook (trajWalk E grid res bnd0) κ
      = dlook bnd0 κ
        + ((List.zip
              (cubesUsed grid (pt2inds (res.permData.headD []) grid)
                res.permData)
              ((tList res.permStep).zip res.permStep)).map
            (fun z => stepContrib E grid (maxAbs res.lyap)
              (trajT res.permStep) κ z.1 z.2.1 z.2.2)).sum :=
  walk_fold E grid (maxAbs res.lyap) (trajT res.permStep) κ res.permData
    ((tList res.permStep).zip res.permStep)
    (pt2inds (res.permData.headD []) grid) bnd0
    (pt2inds_nodup _ grid)

/-! ### C4: the Probability Field invariant -/

lemma mulAt_pos (p : List ℚ) (id : ℤ) (c : ℚ) (hc : 0 < c)
    (hp : ∀ x ∈ p, 0 < x) : ∀ x ∈ mulAt p id c, 0 < x := by
  intro x hx
  by_cases hlen : p.length ≤ id.toNat
  · rw [mulAt, List.set_eq_of_length_le hlen] at hx
    exact hp x hx
  · push_neg at hlen
    rcases List.mem_or_eq_of_mem_set hx with h | rfl
    · exact hp x h
    · refine mul_pos (hp _ ?_) hc
      rw [List.getD_eq_getElem?_getD, List.getElem?_eq_getElem hlen]
      exact List.getElem_mem hlen

lemma updStep_length (pairs : List (ℤ × Sig)) (e1 e2 : ℚ)
    (acc : List ℚ × DataMap × ℕ × Finset ℤ) (m : ℕ) :
    (updStep pairs e1 e2 acc m).1.length = acc.1.length := by
  rw [updStep]
  cases hm : pairs.get? m with
  | none => rfl
  | some pr =>
      dsimp only
      split <;> simp [mulAt_length]

lemma updStep_pos (pairs : List (ℤ × Sig)) (e1 e2 : ℚ)
    (h1 : 0 < e1) (h2 : 0 < e2)
    (acc : List ℚ × DataMap × ℕ × Finset ℤ) (m : ℕ)
    (hp : ∀ x ∈ acc.1, 0 < x) :
    ∀ x ∈ (updStep pairs e1 e2 acc m).1, 0 < x := by
  rw [updStep]
  cases hm : pairs.get? m with
  | none => exact hp
  | some pr =>
      dsimp only
      split
      · exact mulAt_pos _ _ _ h2 hp
      · exact mulAt_pos _ _ _ h1 hp

lemma foldl_updStep_length (pairs : List (ℤ × Sig)) (e1 e2 : ℚ) :
    ∀ (l : List ℕ) (acc : List ℚ × DataMap × ℕ × Finset ℤ),
      (l.foldl (updStep pairs e1 e2) acc).1.length = acc.1.length := by
  intro l
  induction l with
  | nil => intro acc; rfl
  | cons m rest ih =>
      intro acc
      rw [List.foldl_cons, ih, updStep_length]

lemma foldl_updStep_pos (pairs : List (ℤ × Sig)) (e1 e2 : ℚ)
    (h1 : 0 < e1) (h2 : 0 < e2) :
    ∀ (l : List ℕ) (acc : List ℚ × DataMap × ℕ × Finset ℤ),
      (∀ x ∈ acc.1, 0 < x) →
      ∀ x ∈ (l.foldl (updStep pairs e1 e2) acc).1, 0 < x := by
  intro l
  induction l with
  | nil => intro acc hp; exact hp
  | cons m rest ih =>
      intro acc hp
      rw [List.foldl_cons]
      exact ih _ (updStep_pos pairs e1 e2 h1 h2 acc m hp)

lemma update_Prob_Data_length (gids : List ℤ) (shape : List ℕ) (grid : Grid)
    (gles : List Sig) (eps : ℚ) (p : List ℚ) (e1 e2 : ℚ) (data : DataMap) :
    (update_Prob_Data gids shape grid gles eps p e1 e2 data).1.length
      = p.length := by
  rw [update_Prob_Data]
  exact foldl_updStep_length _ _ _ _ _

lemma update_Prob_Data_pos (gids : List ℤ) (shape : List ℕ) (grid : Grid)
    (gles : List Sig) (eps : ℚ) (p : List ℚ) (e1 e2 : ℚ) (data : DataMap)
    (h1 : 0 < e1) (h2 : 0 < e2) (hp : ∀ x ∈ p, 0 < x) :
    ∀ x ∈ (update_Prob_Data gids shape grid gles eps p e1 e2 data).1,
      0 < x := by
  rw [update_Prob_Data]
  exact foldl_updStep_pos _ _ _ h1 h2 _ _ hp

lemma probStep_foldl_length (cfg : MCTCfg) (shape : List ℕ) :
    ∀ (gs : List LEOut) (acc : List ℚ × DataMap × ℕ × Finset ℤ),
      ((gs.foldl (probStep cfg shape) acc).1).length = acc.1.length := by
  intro gs
  induction gs with
  | nil => intro acc; rfl
  | cons g rest ih =>
      intro acc
      rw [List.foldl_cons, ih, probStep, update_Prob_Data_length]

lemma probStep_foldl_pos (cfg : MCTCfg) (shape : List ℕ)
    (h1 : 0 < cfg.eta_1) (h2 : 0 < cfg.eta_2) :
    ∀ (gs : List LEOut) (acc : List ℚ × DataMap × ℕ × Finset ℤ),
      (∀ x ∈ acc.1, 0 < x) →
      ∀ x ∈ (gs.foldl (probStep cfg shape) acc).1, 0 < x := by
  intro gs
  induction gs with
  | nil => intro acc hp; exact hp
  | cons g rest ih =>
      intro acc hp
      rw [List.foldl_cons]
      exact ih _ (update_Prob_Data_pos _ _ _ _ _ _ _ _ _ h1 h2 hp)

/-- Every value of an accumulator dictionary is a pair of positives. -/
def PosBnd (b : BndMap) : Prop := ∀ e ∈ b, 0 < e.2.1 ∧ 0 < e.2.2

lemma dictAdd_posBnd (b : BndMap) (k : Ind) (v w : ℚ)
    (hb : PosBnd b) (hv : 0 < v) (hw : 0 < w) :
    PosBnd (dictAdd b k v w) := by
  intro e he
  rw [dictAdd] at he
  split at he
  · rcases List.mem_map.mp he with ⟨e0, he0, rfl⟩
    by_cases h : e0.1 = k
    · simp only [h, if_pos rfl]
      exact ⟨add_pos (hb e0 he0).1 hv, add_pos (hb e0 he0).2 hw⟩
    · simp only [if_neg h]
      exact hb e0 he0
  · rcases List.mem_append.mp he with h | h
    · exact hb e h
    · rcases List.mem_singleton.mp h with rfl
      exact ⟨hv, hw⟩

lemma dictAddAll_posBnd :
    ∀ (entries : BndMap) (b : BndMap), PosBnd b →
      (∀ e ∈ entries, 0 < e.2.1 ∧ 0 < e.2.2) →
      PosBnd (dictAddAll b entries) := by
  intro entries
  induction entries with
  | nil => intro b hb _; exact hb
  | cons e rest ih =>
      intro b hb hent
      rw [dictAddAll, List.foldl_cons]
      exact ih _
        (dictAdd_posBnd b e.1 e.2.1 e.2.2 hb
          (hent e (List.mem_cons_self e rest)).1
          (hent e (List.mem_cons_self e rest)).2)
        (fun e2 he2 => hent e2 (List.mem_cons_of_mem e he2))

lemma stepEntries_pos (E : ℚ → ℚ) (grid : Grid) (c T : ℚ)
    (cube : List Ind) (tk dt : ℚ) (hE : ∀ x, 0 < E x) (hdt : 0 < dt) :
    ∀ e ∈ stepEntries E grid c T cube tk dt, 0 < e.2.1 ∧ 0 < e.2.2 := by
  intro e he
  rcases List.mem_map.mp he with ⟨ind, -, rfl⟩
  exact ⟨mul_pos (hE _) hdt, hdt⟩

lemma walkFold_posBnd (E : ℚ → ℚ) (grid : Grid) (c T : ℚ)
    (hE : ∀ x, 0 < E x) :
    ∀ (zs : List (Pt × ℚ × ℚ)) (st : WalkSt), PosBnd st.bnd →
      (∀ z ∈ zs, 0 < z.2.2) →
      PosBnd ((zs.foldl (walkStep E grid c T) st).bnd) := by
  intro zs
  induction zs with
  | nil => intro st hb _; exact hb
  | cons z rest ih =>
      intro st hb hz
      rw [List.foldl_cons]
      refine ih _ ?_ (fun z2 hz2 => hz z2 (List.mem_cons_of_mem z hz2))
      exact dictAddAll_posBnd _ _ hb
        (stepEntries_pos E grid c T _ _ _ hE (hz z (List.mem_cons_self z rest)))

lemma trajWalk_posBnd (E : ℚ → ℚ) (grid : Grid) (res : SimResult)
    (bnd0 : BndMap) (hE : ∀ x, 0 < E x)
    (hsteps : ∀ d ∈ res.permStep, 0 < d) (hb : PosBnd bnd0) :
    PosBnd (trajWalk E grid res bnd0) := by
  rw [trajWalk]
  refine walkFold_posBnd E grid _ _ hE _ _ hb ?_
  intro z hz
  have h2 := (List.of_mem_zip hz).2
  exact hsteps _ (List.of_mem_zip h2).2

lemma LE_posBnd (E : ℚ → ℚ) (sim : Pt → SimResult) (grid : Grid)
    (shape : List ℕ) (q : ℕ) (r Dinv : ℚ) (ci : Ind)
    (hE : ∀ x, 0 < E x)
    (hsim : ∀ pt, ∀ d ∈ (sim pt).permStep, 0 < d) :
    PosBnd (LE E sim grid shape q r Dinv ci).bnd := by
  rw [LE]
  have hgen : ∀ (pts : List Pt) (b : BndMap), PosBnd b →
      PosBnd ((pts.map sim).foldl (fun b res => trajWalk E grid res b) b) := by
    intro pts
    induction pts with
    | nil => intro b hb; exact hb
    | cons pt rest ih =>
        intro b hb
        rw [List.map_cons, List.foldl_cons]
        exact ih _ (trajWalk_posBnd E grid (sim pt) b hE (hsim pt) hb)
  exact hgen _ [] (fun e he => absurd he (List.not_mem_nil e))

lemma mergeAll_posBnd :
    ∀ (gs : List BndMap) (b : BndMap), PosBnd b →
      (∀ g ∈ gs, PosBnd g) → PosBnd (gs.foldl mergeGroup b) := by
  intro gs
  induction gs with
  | nil => intro b hb _; exact hb
  | cons g rest ih =>
      intro b hb hg
      rw [List.foldl_cons]
      exact ih _
        (dictAddAll_posBnd g b hb (hg g (List.mem_cons_self g rest)))
        (fun g2 hg2 => hg g2 (List.mem_cons_of_mem g hg2))

lemma applyAccum_pos (shape : List ℕ) :
    ∀ (master : BndMap) (p : List ℚ), PosBnd master →
      (∀ x ∈ p, 0 < x) → ∀ x ∈ applyAccum shape master p, 0 < x := by
  intro master
  induction master with
  | nil => intro p _ hp; exact hp
  | cons e rest ih =>
      intro p hm hp
      rw [applyAccum, List.foldl_cons]
      have hstep : rest.foldl
          (fun p e => mulAt p (ind2int e.1 shape) (e.2.1 / e.2.2))
          (mulAt p (ind2int e.1 shape) (e.2.1 / e.2.2))
          = applyAccum shape rest (mulAt p (ind2int e.1 shape)
              (e.2.1 / e.2.2)) := rfl
      rw [hstep]
      refine ih _ (fun e2 he2 => hm e2 (List.mem_cons_of_mem e he2)) ?_
      exact mulAt_pos _ _ _
        (div_pos (hm e (List.mem_cons_self e rest)).1
          (hm e (List.mem_cons_self e rest)).2) hp

lemma normalize_length (p : List ℚ) : (normalize p).length = p.length := by
  simp [normalize]

lemma normalize_pos (p : List ℚ) (hp : ∀ x ∈ p, 0 < x) (hne : p ≠ []) :
    ∀ x ∈ normalize p, 0 < x := by
  intro x hx
  rcases List.mem_map.mp hx with ⟨y, hy, rfl⟩
  exact div_pos (hp y hy) (List.sum_pos p hp hne)

/-- The Probability Field invariant: fully defined (one weight per Cell
Id), strictly positive, total mass one. -/
def FieldInv (cfg : MCTCfg) (s : MCTState) : Prop :=
  s.p.length = (gridShape cfg.grid).prod ∧
  (∀ x ∈ s.p, 0 < x) ∧ s.p.sum = 1

lemma iterField_length (cfg : MCTCfg) (s : MCTState) :
    (iterField cfg s).length = s.p.length := by
  rw [iterField, applyAccum_length, probStep_foldl_length]

lemma iterField_pos (cfg : MCTCfg) (s : MCTState)
    (hE : ∀ x, 0 < cfg.E x) (h1 : 0 < cfg.eta_1) (h2 : 0 < cfg.eta_2)
    (hsim : ∀ pt, ∀ d ∈ (cfg.sim pt).permStep, 0 < d)
    (hp : ∀ x ∈ s.p, 0 < x) :
    ∀ x ∈ iterField cfg s, 0 < x := by
  rw [iterField]
  refine applyAccum_pos _ _ _ ?_ ?_
  · refine mergeAll_posBnd _ []
      (fun e he => absurd he (List.not_mem_nil e)) ?_
    intro g hg
    rcases List.mem_map.mp hg with ⟨g0, hg0, rfl⟩
    rcases List.mem_map.mp hg0 with ⟨ind, -, rfl⟩
    exact LE_posBnd _ _ _ _ _ _ _ _ hE hsim
  · exact probStep_foldl_pos cfg _ h1 h2 _ _ hp

lemma loopIter_FieldInv (cfg : MCTCfg)
    (hN : 0 < (gridShape cfg.grid).prod)
    (hE : ∀ x, 0 < cfg.E x) (h1 : 0 < cfg.eta_1) (h2 : 0 < cfg.eta_2)
    (hsim : ∀ pt, ∀ d ∈ (cfg.sim pt).permStep, 0 < d)
    (s : MCTState) (hs : FieldInv cfg s) : FieldInv cfg (loopIter cfg s) := by
  rcases hs with ⟨hlen, hpos, -⟩
  have hflen : (iterField cfg s).length = (gridShape cfg.grid).prod := by
    rw [iterField_length, hlen]
  have hfpos : ∀ x ∈ iterField cfg s, 0 < x :=
    iterField_pos cfg s hE h1 h2 hsim hpos
  have hfne : iterField cfg s ≠ [] := by
    intro hnil
    rw [hnil] at hflen
    simp at hflen
    omega
  refine ⟨?_, ?_, ?_⟩
  · rw [loopIter_p, normalize_length, hflen]
  · rw [loopIter_p]
    exact normalize_pos _ hfpos hfne
  · rw [loopIter_p]
    exact normalize_sum _ (ne_of_gt (List.sum_pos _ hfpos hfne))

lemma initState_FieldInv (cfg : MCTCfg)
    (hN : 0 < (gridShape cfg.grid).prod) : FieldInv cfg (initState cfg) := by
  have hNQ : (0 : ℚ) < ((gridShape cfg.grid).prod : ℚ) := by
    exact_mod_cast hN
  refine ⟨by simp [initState], ?_, ?_⟩
  · intro x hx
    have := List.eq_of_mem_replicate hx
    rw [this]
    exact inv_pos.mpr hNQ
  · show (List.replicate ((gridShape cfg.grid).prod)
      (((gridShape cfg.grid).prod : ℚ))⁻¹).sum = 1
    rw [List.sum_replicate, nsmul_eq_mul, mul_inv_cancel₀ (ne_of_gt hNQ)]

lemma mctLoop_FieldInv (cfg : MCTCfg)
    (hN : 0 < (gridShape cfg.grid).prod)
    (hE : ∀ x, 0 < cfg.E x) (h1 : 0 < cfg.eta_1) (h2 : 0 < cfg.eta_2)
    (hsim : ∀ pt, ∀ d ∈ (cfg.sim pt).permStep, 0 < d) :
    ∀ (fuel : ℕ) (s : MCTState), FieldInv cfg s →
      FieldInv cfg (mctLoop cfg fuel s) := by
  intro fuel
  induction fuel with
  | zero => intro s hs; exact hs
  | succ fuel ih =>
      intro s hs
      rw [mctLoop]
      by_cases hg : guardB cfg s
      · rw [if_pos hg]
        exact ih _ (loopIter_FieldInv cfg hN hE h1 h2 hsim s hs)
      · rw [if_neg hg]; exact hs

/-- C4: the Probability Field is initialized uniform (each weight
`1/prod(count_d)`) and, for a positive-cell grid, positive `np.exp` and
positive update factors and step sizes (all true of the real code), at
every iteration boundary it assigns a defined weight to every Cell Id
(length `prod(count_d)`), all weights are non-negative, and they sum
to 1. -/
theorem claim_C4_field_invariant (cfg : MCTCfg)
    (hN : 0 < (gridShape cfg.grid).prod)
    (hE : ∀ x, 0 < cfg.E x) (h1 : 0 < cfg.eta_1) (h2 : 0 < cfg.eta_2)
    (hsim : ∀ pt, ∀ d ∈ (cfg.sim pt).permStep, 0 < d) :
    (initState cfg).p = List.replicate ((gridShape cfg.grid).prod)
      ((1 : ℚ) / ((gridShape cfg.grid).prod : ℚ)) ∧
    ∀ fuel : ℕ,
      (mctLoop cfg fuel (initState cfg)).p.length
          = (gridShape cfg.grid).prod ∧
      (∀ x ∈ (mctLoop cfg fuel (initState cfg)).p, 0 ≤ x) ∧
      (mctLoop cfg fuel (initState cfg)).p.sum = 1 := by
  constructor
  · rw [initState]
    simp [one_div]
  · intro fuel
    have h := mctLoop_FieldInv cfg hN hE h1 h2 hsim fuel (initState cfg)
      (initState_FieldInv cfg hN)
    exact ⟨h.1, fun x hx => le_of_lt (h.2.1 x hx), h.2.2⟩

/-- Witness for C4 at `exCfg` (one iteration of fuel). -/
theorem claim_C4_witness :
    0 < (gridShape exCfg.grid).prod ∧
    (∀ x, 0 < exCfg.E x) ∧ 0 < exCfg.eta_1 ∧ 0 < exCfg.eta_2 ∧
    (∀ pt, ∀ d ∈ (exCfg.sim pt).permStep, 0 < d) ∧
    (mctLoop exCfg 1 (initState exCfg)).p.sum = 1 := by
  have hN : 0 < (gridShape exCfg.grid).prod := by decide
  have hE : ∀ x, 0 < exCfg.E x := by
    intro x; norm_num [exCfg]
  have h1 : 0 < exCfg.eta_1 := by norm_num [exCfg]
  have h2 : 0 < exCfg.eta_2 := by norm_num [exCfg]
  have hsim : ∀ pt, ∀ d ∈ (exCfg.sim pt).permStep, 0 < d := by
    intro pt d hd
    simp [exCfg, exSim] at hd
    rw [hd]
    norm_num
  exact ⟨hN, hE, h1, h2, hsim,
    ((claim_C4_field_invariant exCfg hN hE h1 h2 hsim).2 1).2.2⟩

/-! ### C6: behaviour when all weights collapse to zero -/

lemma map_div_zero :
    ∀ l : List ℚ, l.map (fun x => x / (0 : ℚ)) = List.replicate l.length 0 := by
  intro l
  induction l with
  | nil => rfl
  | cons x xs ih => simp [ih, List.replicate_succ]

/-- C6 (amended): the code contains no degenerate-field check — when the
weights collapse so that the pre-normalization field sums to zero, the
renormalization of line 148 divides by zero (under the exact-rational
semantics `x / 0 = 0`, yielding the all-zero field) and the iteration
still completes normally, incrementing the counter; no error is ever
raised. -/
theorem claim_C6_amended (cfg : MCTCfg) (s : MCTState)
    (h : (iterField cfg s).sum = 0) :
    (loopIter cfg s).p = List.replicate (iterField cfg s).length 0 ∧
    (loopIter cfg s).i = s.i + 1 := by
  refine ⟨?_, rfl⟩
  rw [loopIter_p, normalize, h, map_div_zero]

/-- A degenerate configuration: `shrinkFactor = 0` (a "misconfigured
shrinkFactor" in the spec's words) and a negative threshold so the guard
alone never stops the loop. -/
def exCfgDeg : MCTCfg := { exCfg with eta_2 := 0, AVG := -1, limit := 2 }

/-- Evaluation of the embedded first iteration at `exCfgDeg`: the
class-based update multiplies every sampled weight by 0, and the
boundary-accumulator factors keep the field at zero. -/
lemma ev_iterField : iterField exCfgDeg (initState exCfgDeg) = [0, 0] := by
  norm_num [iterField, exCfgDeg, exCfg, exGrid, exSim, exDraws, initState,
    gridShape, int2ind, LE, neighbors, allInds, prodLists, ind2pt0, ind2pt,
    ind2int, pt2inds, trajWalk, walkStep, cubeUpd, cubePts, ds2, ddiag2,
    inBnds, stepEntries, tList, trajT, maxAbs, dictAddAll, dictAdd, mergeAll,
    mergeGroup, update_LERef, sigMatch, ensureBucket, adjustLEs2Ref,
    nearestRef, l1dist, probStep, update_Prob_Data, updStep, addSample,
    mulAt, applyAccum, List.range_succ, Int.floor_eq_iff,
    List.enum, List.enumFrom, List.zip_cons_cons, List.set_cons_zero,
    List.set_cons_succ, -List.map_const, -List.map_const']
  rfl

/-- C6 counterexample: at `exCfgDeg` the first iteration's update
collapses every weight to zero, yet no `DegenerateProbabilityField`
error exists or is raised — the loop renormalizes by dividing by zero,
carries the all-zero field, and goes on to complete a second iteration
(final iteration count 2). -/
theorem claim_C6_counterexample :
    (iterField exCfgDeg (initState exCfgDeg)).sum = 0 ∧
    (loopIter exCfgDeg (initState exCfgDeg)).p = [0, 0] ∧
    (mctLoop exCfgDeg 2 (initState exCfgDeg)).i = 2 := by
  have hsum : (iterField exCfgDeg (initState exCfgDeg)).sum = 0 := by
    rw [ev_iterField]
    norm_num
  refine ⟨hsum, ?_, ?_⟩
  · rw [loopIter_p, normalize, ev_iterField]
    norm_num
  · have hg0 : guardB exCfgDeg (initState exCfgDeg) = true := by
      simp [guardB, avgGt, initState, exCfgDeg, exCfg]
    have havg : avgGt (loopIter exCfgDeg (initState exCfgDeg)).avg
        exCfgDeg.AVG = true := by
      rw [loopIter_avg]
      simp only [avgGt, decide_eq_true_eq]
      have hnn : (0 : ℚ) ≤
          ((loopIter exCfgDeg (initState exCfgDeg)).B_pairs : ℚ) /
            (((exCfgDeg.q : ℚ) + 1) * (exCfgDeg.L : ℚ) *
              ((loopIter exCfgDeg (initState exCfgDeg)).i : ℚ)) := by
        refine div_nonneg (Nat.cast_nonneg _) ?_
        positivity
      have hAVG : exCfgDeg.AVG = -1 := rfl
      rw [hAVG]
      linarith
    have hg1 : guardB exCfgDeg
        (loopIter exCfgDeg (initState exCfgDeg)) = true := by
      rw [guardB, loopIter_i]
      have hi0 : (initState exCfgDeg).i = 0 := rfl
      rw [hi0, havg]
      simp [exCfgDeg, exCfg]
    rw [mctLoop, if_pos hg0, mctLoop, if_pos hg1, mctLoop, loopIter_i,
      loopIter_i]
    rfl

/-- Witness for the amended C6 theorem at the degenerate configuration. -/
theorem claim_C6_witness :
    (iterField exCfgDeg (initState exCfgDeg)).sum = 0 ∧
    ((loopIter exCfgDeg (initState exCfgDeg)).p
        = List.replicate (iterField exCfgDeg (initState exCfgDeg)).length 0 ∧
      (loopIter exCfgDeg (initState exCfgDeg)).i
        = (initState exCfgDeg).i + 1) := by
  have hsum : (iterField exCfgDeg (initState exCfgDeg)).sum = 0 := by
    rw [ev_iterField]
    norm_num
  exact ⟨hsum, claim_C6_amended exCfgDeg (initState exCfgDeg) hsum⟩

end MCG
